import Mathlib

/-!
# Verification of the RangeStatsRecomputer (`src/static/js/function1.js`)

Shallow embedding of the year-range filter and stability/statistics
recomputation from `function1.js`, together with proofs of the spec's
claims about it.

Modelling conventions:
* A JavaScript value appearing in a data series is `JSVal`: a finite
  number (`num`, carried as a real), the number `NaN` (`nan`, for which
  `typeof v === "number"` holds but `Number.isNaN(v)` is true), or any
  non-number such as `null` (`nonNumber`).  The input data arrives as
  JSON, which can only denote finite numbers or `null`, so finite reals
  suffice for the numeric case; arithmetic on JS doubles is idealised as
  real arithmetic, `Math.sqrt` as `Real.sqrt`.
* JS `Array.prototype.sort(cmp)` is stable and, for the comparator
  `(a, b) => b.stability - a.stability`, places `a` before `b` exactly
  when `b.stability ≤ a.stability` (ties keep input order).  A stable
  sort consistent with a total preorder is unique, so we model it by
  `List.mergeSort` with that boolean relation.
* Years are integers (`ℤ`); chart state is an explicit record and the
  three `chart.update()` calls are modelled by an update counter.
-/

/-- A JavaScript value in a data series: a finite number, `NaN`, or a
non-number (e.g. `null` for a missing entry). -/
inductive JSVal where
  | num (x : ℝ)
  | nan
  | nonNumber

/-- The filter `arr.filter(v => typeof v === "number" && !Number.isNaN(v))`:
keeps exactly the finite-number entries, viewed as reals. -/
def validVals (arr : List JSVal) : List ℝ :=
  arr.filterMap fun v =>
    match v with
    | .num x => some x
    | .nan => none
    | .nonNumber => none

/-- `mean(arr)` from `function1.js` (lines 22–26): arithmetic mean of the
valid numeric entries, `null` when there are none.  `vals.reduce((a,b) => a+b, 0)`
is the left fold of addition. -/
noncomputable def mean (arr : List JSVal) : Option ℝ :=
  let vals := validVals arr
  if vals.length = 0 then none
  else some (vals.foldl (· + ·) 0 / vals.length)

/-- `stdDev(arr)` from `function1.js` (lines 29–35): sample standard
deviation (divisor `n−1`) of the valid numeric entries, `null` when there
are fewer than two.  The source computes `const m = mean(vals)` on the
already-filtered array, which is `sum / length`; the lemma `mean_map_num`
below checks this against `mean`. -/
noncomputable def stdDev (arr : List JSVal) : Option ℝ :=
  let vals := validVals arr
  if vals.length < 2 then none
  else
    let m : ℝ := vals.foldl (· + ·) 0 / vals.length
    let variance : ℝ := vals.foldl (fun acc v => acc + (v - m) ^ 2) 0 / ((vals.length : ℝ) - 1)
    some (Real.sqrt variance)

/-- `sliceByYearRange(years, fromYear, toYear)` from `function1.js`
(lines 15–20): `indexOf` both years, fail if either is `-1` (modelled by
`indexOf?` returning `none`) or `fromIdx > toIdx`. -/
def sliceByYearRange (years : List ℤ) (fromYear toYear : ℤ) : Option (ℕ × ℕ) :=
  match years.indexOf? fromYear, years.indexOf? toYear with
  | some fromIdx, some toIdx =>
      if fromIdx > toIdx then none else some (fromIdx, toIdx)
  | _, _ => none

/-- One named series `{label, data}` of a line dataset. -/
structure Dataset where
  label : String
  data : List JSVal

/-- One per-group record `{group, mean, std, stability}` built by
`computeStabilityFromLineDatasets`. -/
structure Stat where
  group : String
  mean : Option ℝ
  std : Option ℝ
  stability : Option ℝ

/-- The per-dataset body of the `datasets.map(...)` in
`computeStabilityFromLineDatasets` (lines 39–44): the stability index is
`(m !== null && s !== null && s !== 0) ? (m / s) : null`. -/
noncomputable def statOf (ds : Dataset) : Stat :=
  let m := mean ds.data
  let s := stdDev ds.data
  let idx : Option ℝ :=
    match m, s with
    | some mv, some sv => if sv = 0 then none else some (mv / sv)
    | _, _ => none
  { group := ds.label, mean := m, std := s, stability := idx }

/-- The ordering the JS comparator `(a, b) => b.stability - a.stability`
induces on the (non-null) ranked records: `a` may precede `b` iff
`b.stability ≤ a.stability`. -/
noncomputable def stabLe (a b : Stat) : Bool :=
  decide (b.stability.getD 0 ≤ a.stability.getD 0)

/-- The `{stats, ranked}` result of `computeStabilityFromLineDatasets`. -/
structure StabilityResult where
  stats : List Stat
  ranked : List Stat

/-- `computeStabilityFromLineDatasets(years, datasets)` from
`function1.js` (lines 37–51).  The ranked filter in the source is
`r.stability !== null && !Number.isNaN(r.stability) && Number.isFinite(r.stability)`;
for values of `Option ℝ` the last two conjuncts always hold, leaving
`isSome`.  `.filter` returns a fresh array, which `.sort` (stable) then
orders; `stats` itself is left as built. -/
noncomputable def computeStabilityFromLineDatasets
    (years : List ℤ) (datasets : List Dataset) : StabilityResult :=
  let stats := datasets.map statOf
  let ranked := (stats.filter fun r => r.stability.isSome).mergeSort stabLe
  { stats := stats, ranked := ranked }

/-- JS `arr.slice(s, e)` for in-range indices `0 ≤ s`, `e ≤ arr.length`:
the elements at positions `s, …, e−1`. -/
def jsSlice (l : List α) (s e : ℕ) : List α :=
  (l.take e).drop s

/-- `Number(x.toFixed(3))`: `x` rounded to three decimal places. -/
noncomputable def roundTo3 (x : ℝ) : ℝ :=
  (round (x * 1000) : ℤ) / 1000

/-- State of the stability bar chart: labels and data of its single
dataset. -/
structure BarView where
  labels : List String
  data : List ℝ

/-- One point `{label, x, y}` of the mean/std scatter chart. -/
structure ScatterPoint where
  label : String
  x : ℝ
  y : ℝ

/-- State of the mean/std scatter chart: data of its single dataset. -/
structure ScatterView where
  data : List ScatterPoint

/-- State of the trend line chart: x-axis labels and line datasets. -/
structure LineView where
  labels : List ℤ
  datasets : List Dataset

/-- The mutable state of the three charts; `updates` counts
`chart.update()` calls (a redraw increments it). -/
structure Charts where
  bar : BarView
  scatter : ScatterView
  line : LineView
  updates : ℕ

/-- `applyRange(fromY, toY)` from `function1.js` (lines 155–199), with
the chart state passed explicitly.  On a failed `sliceByYearRange` the
function returns early: no chart state changes and no `update()` runs.
On success it slices years and every dataset inclusively, recomputes the
stability statistics, and rewrites all three chart views (three
`update()` calls). -/
noncomputable def applyRange (yearsAll : List ℤ) (lineDatasetsAll : List Dataset)
    (st : Charts) (fromYear toYear : ℤ) : Charts :=
  match sliceByYearRange yearsAll fromYear toYear with
  | none => st
  | some (fromIdx, toIdx) =>
      let yearsFiltered := jsSlice yearsAll fromIdx (toIdx + 1)
      let lineFiltered := lineDatasetsAll.map fun ds =>
        { label := ds.label, data := jsSlice ds.data fromIdx (toIdx + 1) : Dataset }
      let res := computeStabilityFromLineDatasets yearsFiltered lineFiltered
      { bar :=
          { labels := res.ranked.map (·.group)
            data := res.ranked.map fun r => roundTo3 (r.stability.getD 0) }
        scatter :=
          { data := (res.stats.filter fun r => r.mean.isSome && r.std.isSome).map fun r =>
              { label := r.group, x := roundTo3 (r.mean.getD 0), y := roundTo3 (r.std.getD 0) } }
        line := { labels := yearsFiltered, datasets := lineFiltered }
        updates := st.updates + 3 }

/-! ## Basic lemmas about the folds and filters -/

theorem foldl_add_eq_sum (l : List ℝ) (a : ℝ) : l.foldl (· + ·) a = a + l.sum := by
  induction l generalizing a with
  | nil => simp
  | cons x xs ih => rw [List.foldl_cons, ih, List.sum_cons]; ring

theorem foldl_add_map_eq_sum (f : ℝ → ℝ) (l : List ℝ) (a : ℝ) :
    l.foldl (fun acc v => acc + f v) a = a + (l.map f).sum := by
  induction l generalizing a with
  | nil => simp
  | cons x xs ih => rw [List.foldl_cons, ih, List.map_cons, List.sum_cons]; ring

/-- `mean`, rewritten with `List.sum`. -/
theorem mean_eq (arr : List JSVal) :
    mean arr = if validVals arr = [] then none
      else some ((validVals arr).sum / (validVals arr).length) := by
  unfold mean
  rcases h : validVals arr with _ | ⟨x, xs⟩ <;>
    simp [h, foldl_add_eq_sum]

/-- `stdDev`, rewritten with `List.sum` over the mapped squared deviations. -/
theorem stdDev_eq (arr : List JSVal) :
    stdDev arr = if (validVals arr).length < 2 then none
      else some (Real.sqrt (((validVals arr).map fun v =>
          (v - (validVals arr).sum / (validVals arr).length) ^ 2).sum /
        ((validVals arr).length - 1))) := by
  unfold stdDev
  rcases Nat.lt_or_ge (validVals arr).length 2 with h | h
  · simp [h]
  · simp only [Nat.not_lt.mpr h, if_neg (Nat.not_lt.mpr h)]
    rw [foldl_add_eq_sum, foldl_add_map_eq_sum]
    simp

/-- In `stdDev`, the source computes `mean(vals)` on the already-filtered
array of numbers; this is `some (sum / length)` whenever it is nonempty,
which justifies inlining that value. -/
theorem validVals_map_num (vals : List ℝ) : validVals (vals.map JSVal.num) = vals := by
  induction vals with
  | nil => rfl
  | cons x xs ih => simp_all [validVals]

theorem mean_map_num (vals : List ℝ) (h : vals ≠ []) :
    mean (vals.map JSVal.num) = some (vals.sum / vals.length) := by
  rw [mean_eq, validVals_map_num, if_neg h]

theorem mean_eq_none_iff (arr : List JSVal) : mean arr = none ↔ validVals arr = [] := by
  rw [mean_eq]
  rcases h : validVals arr with _ | ⟨x, xs⟩ <;> simp

theorem stdDev_eq_none_iff (arr : List JSVal) :
    stdDev arr = none ↔ (validVals arr).length < 2 := by
  rw [stdDev_eq]
  rcases Nat.lt_or_ge (validVals arr).length 2 with h | h <;> simp [h, Nat.not_lt.mpr h]

/-- If `mean` fails there are no valid values, so `stdDev` fails too. -/
theorem stdDev_eq_none_of_mean_eq_none {arr : List JSVal} (h : mean arr = none) :
    stdDev arr = none := by
  rw [stdDev_eq_none_iff]
  rw [mean_eq_none_iff] at h
  simp [h]

/-! ## Spec-side statistics definitions (for the refinement claim C1) -/

/-- The spec's `mean`: "arithmetic mean of valid numeric entries
(non-numeric/NaN excluded); `None` if zero valid entries." -/
noncomputable def meanSpec (arr : List JSVal) : Option ℝ :=
  if validVals arr = [] then none
  else some ((validVals arr).sum / (validVals arr).length)

/-- The spec's `std`: "sample standard deviation (Bessel-corrected,
divisor n−1) of valid entries; `None` if fewer than 2 valid entries." -/
noncomputable def stdDevSpec (arr : List JSVal) : Option ℝ :=
  let vals := validVals arr
  if vals.length < 2 then none
  else
    let μ := vals.sum / vals.length
    some (Real.sqrt ((vals.map fun v => (v - μ) ^ 2).sum / ((vals.length : ℝ) - 1)))

/-- C1: For every value series, computeStats (realised as the mean and
stdDev functions) returns mean = the arithmetic mean of the valid numeric
entries (non-numeric and NaN entries excluded), or None when there are
zero valid entries; and std = the Bessel-corrected sample standard
deviation (divisor n−1) of the valid entries, or None when there are
fewer than 2 valid entries. -/
theorem computeStats_correct (arr : List JSVal) :
    mean arr = meanSpec arr ∧ stdDev arr = stdDevSpec arr := by
  constructor
  · rw [mean_eq, meanSpec]
  · rw [stdDev_eq, stdDevSpec]

/-! ## C2: the stability index -/

/-- C2: For every group, the stability value produced by rankGroups
(realised as computeStabilityFromLineDatasets) equals mean/std, and is
None exactly when the std is null, zero, NaN, or infinite.  (Over the
reals a standard deviation is never NaN nor infinite, so those cases of
the claim are vacuous.) -/
theorem stability_eq_mean_div_std (ds : Dataset) :
    ((statOf ds).stability = none ↔
      ((statOf ds).std = none ∨ (statOf ds).std = some 0))
    ∧ ∀ m s, (statOf ds).mean = some m → (statOf ds).std = some s → s ≠ 0 →
        (statOf ds).stability = some (m / s) := by
  unfold statOf
  rcases hm : mean ds.data with _ | mv
  · have hs := stdDev_eq_none_of_mean_eq_none hm
    simp [hm, hs]
  · rcases hs : stdDev ds.data with _ | sv
    · simp [hm, hs]
    · by_cases h0 : sv = 0 <;> simp [hm, hs, h0]

/-- Concrete evaluation of the statistics record on the series `[0, 2]`:
mean `1`, sample standard deviation `√2`, stability `1/√2`. -/
theorem statOf_zero_two :
    statOf { label := "A", data := [.num 0, .num 2] } =
      { group := "A", mean := some 1, std := some (Real.sqrt 2),
        stability := some (1 / Real.sqrt 2) } := by
  have hv : validVals [JSVal.num 0, JSVal.num 2] = [0, 2] := by
    simp [validVals]
  have hm : mean [JSVal.num 0, JSVal.num 2] = some 1 := by
    rw [mean_eq, hv, if_neg (by simp)]; norm_num
  have hs : stdDev [JSVal.num 0, JSVal.num 2] = some (Real.sqrt 2) := by
    rw [stdDev_eq, hv, if_neg (by norm_num)]; norm_num
  have hsqrt : Real.sqrt 2 ≠ 0 := by positivity
  unfold statOf
  rw [hm, hs]
  simp [hsqrt]

/-- Witness for C2 at the series `[0, 2]`. -/
theorem stability_eq_mean_div_std_witness :
    (statOf { label := "A", data := [.num 0, .num 2] }).stability =
      some (1 / Real.sqrt 2) := by
  have hsqrt : Real.sqrt 2 ≠ 0 := by positivity
  exact (stability_eq_mean_div_std { label := "A", data := [.num 0, .num 2] }).2
    1 (Real.sqrt 2)
    (by rw [statOf_zero_two]) (by rw [statOf_zero_two]) hsqrt

/-! ## C3: the ranked list is the stable descending sort of the
finite-stability stats -/

theorem stabLe_trans : ∀ a b c : Stat, stabLe a b → stabLe b c → stabLe a c := by
  intro a b c hab hbc
  simp only [stabLe, decide_eq_true_eq] at *
  exact le_trans hbc hab

theorem stabLe_total : ∀ a b : Stat, stabLe a b || stabLe b a := by
  intro a b
  simp only [stabLe, Bool.or_eq_true, decide_eq_true_eq]
  exact le_total _ _

/-- The records of `l` whose stability equals `c` (a tie class), in the
order of `l`. -/
noncomputable def tiesAt (c : ℝ) (l : List Stat) : List Stat :=
  l.filter fun r => decide (r.stability = some c)

theorem mem_tiesAt {c : ℝ} {l : List Stat} {r : Stat} :
    r ∈ tiesAt c l ↔ r ∈ l ∧ r.stability = some c := by
  simp [tiesAt]

/-- C3: For every list of groups, the ranked list returned by rankGroups
(realised as computeStabilityFromLineDatasets) is exactly the entries of
stats whose stability is non-null and finite, sorted in descending order
of stability, with ties broken by original input order (stable sort); in
particular ranked is always a subset of stats.  Ties-in-input-order is
stated as: for every stability value `c`, the tie class of `c` in ranked
is the tie class of `c` in the filtered stats, in the same order. -/
theorem rankGroups_ranked_spec (years : List ℤ) (datasets : List Dataset) :
    (∀ r ∈ (computeStabilityFromLineDatasets years datasets).ranked,
        r ∈ (computeStabilityFromLineDatasets years datasets).stats)
    ∧ (computeStabilityFromLineDatasets years datasets).ranked.Perm
        ((computeStabilityFromLineDatasets years datasets).stats.filter
          fun r => r.stability.isSome)
    ∧ (computeStabilityFromLineDatasets years datasets).ranked.Pairwise
        (fun a b => b.stability.getD 0 ≤ a.stability.getD 0)
    ∧ ∀ c : ℝ, tiesAt c (computeStabilityFromLineDatasets years datasets).ranked =
        tiesAt c ((computeStabilityFromLineDatasets years datasets).stats.filter
          fun r => r.stability.isSome) := by
  have hranked : (computeStabilityFromLineDatasets years datasets).ranked =
      ((computeStabilityFromLineDatasets years datasets).stats.filter
        fun r => r.stability.isSome).mergeSort stabLe := rfl
  set base := (computeStabilityFromLineDatasets years datasets).stats.filter
    fun r => r.stability.isSome with hbase
  have hperm : (computeStabilityFromLineDatasets years datasets).ranked.Perm base := by
    rw [hranked]; exact List.mergeSort_perm base stabLe
  refine ⟨?_, hperm, ?_, ?_⟩
  · intro r hr
    rw [hranked] at hr
    exact List.mem_of_mem_filter (List.mem_mergeSort.mp hr)
  · rw [hranked]
    have h := List.sorted_mergeSort stabLe_trans stabLe_total base
    exact h.imp fun hab => by simpa [stabLe] using hab
  · intro c
    set t := tiesAt c base with ht
    have ht_sub : t.Sublist base := List.filter_sublist _
    have ht_pw : t.Pairwise fun a b => stabLe a b := by
      apply List.pairwise_of_forall_mem_list
      intro a ha b hb
      have ha' := (mem_tiesAt.mp ha).2
      have hb' := (mem_tiesAt.mp hb).2
      simp [stabLe, ha', hb']
    have hsub : t.Sublist (base.mergeSort stabLe) :=
      List.sublist_mergeSort stabLe_trans stabLe_total ht_pw ht_sub
    have hsub' : t.Sublist (tiesAt c (base.mergeSort stabLe)) := by
      have h1 : t.filter (fun r => decide (r.stability = some c)) = t :=
        List.filter_eq_self.mpr fun a ha => by
          simp [(mem_tiesAt.mp ha).2]
      have h2 := hsub.filter fun r => decide (r.stability = some c)
      rw [h1] at h2
      exact h2
    have hlen : (tiesAt c (base.mergeSort stabLe)).length = t.length := by
      have := (List.mergeSort_perm base stabLe).filter
        fun r => decide (r.stability = some c)
      exact this.length_eq
    rw [hranked]
    exact (hsub'.eq_of_length hlen.symm).symm

/-- Evaluation of `computeStabilityFromLineDatasets` on the single group
`A = [0, 2]`: the group appears in `stats` and (having finite non-null
stability `1/√2`) also in `ranked`. -/
theorem compute_single (years : List ℤ) :
    computeStabilityFromLineDatasets years [{ label := "A", data := [.num 0, .num 2] }] =
      { stats := [statOf { label := "A", data := [.num 0, .num 2] }],
        ranked := [statOf { label := "A", data := [.num 0, .num 2] }] } := by
  unfold computeStabilityFromLineDatasets
  simp [statOf_zero_two, List.mergeSort_singleton]

/-- Witness for C3: the single ranked record of the group `A = [0, 2]`
is an entry of `stats`. -/
theorem rankGroups_ranked_spec_witness :
    statOf { label := "A", data := [.num 0, .num 2] } ∈
      (computeStabilityFromLineDatasets [] [{ label := "A", data := [.num 0, .num 2] }]).stats := by
  refine (rankGroups_ranked_spec [] [{ label := "A", data := [.num 0, .num 2] }]).1
    (statOf { label := "A", data := [.num 0, .num 2] }) ?_
  rw [compute_single]
  exact List.mem_singleton.mpr rfl

/-! ## C4, C5, C6: the year-range slice and applyRange -/

theorem indexOf?_eq_some_of_mem {l : List ℤ} {a : ℤ} (h : a ∈ l) :
    l.indexOf? a = some (l.indexOf a) := by
  unfold List.indexOf? List.indexOf
  exact List.findIdx?_eq_some_of_exists ⟨a, h, by simp⟩

theorem indexOf?_eq_none_of_not_mem {l : List ℤ} {a : ℤ} (h : a ∉ l) :
    l.indexOf? a = none := by
  rw [List.indexOf?_eq_none_iff]
  intro x hx
  simp only [beq_iff_eq]
  intro he
  exact h (he ▸ hx)

theorem indexOf?_lt_length {l : List ℤ} {a : ℤ} {i : ℕ} (h : l.indexOf? a = some i) :
    i < l.length := by
  unfold List.indexOf? at h
  exact (List.findIdx?_eq_some_iff_findIdx_eq.mp h).1

/-- C4: For every (fromYear, toYear) for which sliceByYearRange returns
None (e.g. fromYear not a member of years), applyRange performs no
mutation of any chart view: the bar, scatter and line views retain their
prior state and no redraw happens (silent no-op; in particular the
update counter does not move). -/
theorem applyRange_invalid_noop (yearsAll : List ℤ) (lineDatasetsAll : List Dataset)
    (st : Charts) (fromYear toYear : ℤ)
    (h : sliceByYearRange yearsAll fromYear toYear = none) :
    applyRange yearsAll lineDatasetsAll st fromYear toYear = st := by
  unfold applyRange
  rw [h]

/-- Witness for C4: `2019` is not a member of `[2020]`, so the range is
rejected and the chart state is returned unchanged. -/
theorem applyRange_invalid_noop_witness :
    applyRange [2020] []
      { bar := { labels := [], data := [] }, scatter := { data := [] },
        line := { labels := [], datasets := [] }, updates := 0 } 2019 2020 =
      { bar := { labels := [], data := [] }, scatter := { data := [] },
        line := { labels := [], datasets := [] }, updates := 0 } :=
  applyRange_invalid_noop [2020] []
    { bar := { labels := [], data := [] }, scatter := { data := [] },
      line := { labels := [], datasets := [] }, updates := 0 } 2019 2020 (by decide)

/-- C5: sliceByYearRange returns the exact positions of fromYear and
toYear in years when both are present and fromIndex ≤ toIndex, and None
when either year is absent from years or fromIndex > toIndex; no partial
or nearest-match fallback occurs.  In particular, when years = [y] is a
singleton, sliceByYearRange(years, y, y) yields fromIndex = toIndex = 0. -/
theorem sliceByYearRange_spec (years : List ℤ) (f t : ℤ) :
    (f ∈ years → t ∈ years → years.indexOf f ≤ years.indexOf t →
        sliceByYearRange years f t = some (years.indexOf f, years.indexOf t))
    ∧ (f ∉ years → sliceByYearRange years f t = none)
    ∧ (t ∉ years → sliceByYearRange years f t = none)
    ∧ (f ∈ years → t ∈ years → years.indexOf t < years.indexOf f →
        sliceByYearRange years f t = none)
    ∧ (∀ y : ℤ, sliceByYearRange [y] y y = some (0, 0)) := by
  refine ⟨?_, ?_, ?_, ?_, ?_⟩
  · intro hf ht hle
    unfold sliceByYearRange
    rw [indexOf?_eq_some_of_mem hf, indexOf?_eq_some_of_mem ht]
    simp [Nat.not_lt.mpr hle]
  · intro hf
    unfold sliceByYearRange
    rw [indexOf?_eq_none_of_not_mem hf]
  · intro ht
    unfold sliceByYearRange
    rw [indexOf?_eq_none_of_not_mem ht]
    rcases years.indexOf? f with _ | i <;> rfl
  · intro hf ht hlt
    unfold sliceByYearRange
    rw [indexOf?_eq_some_of_mem hf, indexOf?_eq_some_of_mem ht]
    simp [hlt]
  · intro y
    have h : ([y].indexOf? y) = some 0 := by
      unfold List.indexOf?
      rw [List.findIdx?_cons]
      simp
    unfold sliceByYearRange
    rw [h]
    rfl

/-- Witness for C5 on `years = [2020, 2021]`: both years present in
order, so the slice is their exact positions. -/
theorem sliceByYearRange_spec_witness :
    sliceByYearRange [2020, 2021] 2020 2021 =
      some (([2020, 2021] : List ℤ).indexOf 2020, ([2020, 2021] : List ℤ).indexOf 2021) :=
  (sliceByYearRange_spec [2020, 2021] 2020 2021).1
    (by decide) (by decide) (by decide)

theorem jsSlice_length {α : Type _} (l : List α) (s e : ℕ)
    (h2 : e ≤ l.length) (h1 : s ≤ e) :
    (jsSlice l s e).length = e - s := by
  simp only [jsSlice, List.length_drop, List.length_take]
  omega

/-- C6: For every valid range (fromYear, toYear) with fromYear appearing
before or at toYear in years, and under the invariant that every group's
value sequence has the same length as years, applyRange slices every
group's series inclusively so that each sliced series has length
toIndex − fromIndex + 1. -/
theorem applyRange_slice_length (yearsAll : List ℤ) (dss : List Dataset)
    (st : Charts) (f t : ℤ) (i j : ℕ)
    (hslice : sliceByYearRange yearsAll f t = some (i, j))
    (hinv : ∀ ds ∈ dss, ds.data.length = yearsAll.length) :
    ∀ d ∈ (applyRange yearsAll dss st f t).line.datasets,
      d.data.length = j - i + 1 := by
  obtain ⟨hij, hj⟩ : i ≤ j ∧ j < yearsAll.length := by
    unfold sliceByYearRange at hslice
    cases hf : yearsAll.indexOf? f with
    | none => rw [hf] at hslice; exact absurd hslice (by simp)
    | some fi =>
      cases ht : yearsAll.indexOf? t with
      | none => rw [hf, ht] at hslice; exact absurd hslice (by simp)
      | some ti =>
        rw [hf, ht] at hslice
        have hslice' : (if fi > ti then (none : Option (ℕ × ℕ)) else some (fi, ti)) =
            some (i, j) := hslice
        by_cases hgt : fi > ti
        · rw [if_pos hgt] at hslice'; exact absurd hslice' (by simp)
        · rw [if_neg hgt] at hslice'
          obtain ⟨h1, h2⟩ : fi = i ∧ ti = j := by
            have h := Option.some.inj hslice'
            exact ⟨congrArg Prod.fst h, congrArg Prod.snd h⟩
          subst h1; subst h2
          exact ⟨Nat.le_of_not_lt hgt, indexOf?_lt_length ht⟩
  intro d hd
  unfold applyRange at hd
  rw [hslice] at hd
  simp only [List.mem_map] at hd
  obtain ⟨ds, hds, rfl⟩ := hd
  have hlen : ds.data.length = yearsAll.length := hinv ds hds
  rw [jsSlice_length _ _ _ (by omega) (by omega)]
  omega

/-- Evaluation of `applyRange` on the full range of a two-year dataset:
the line view holds the (whole) sliced series. -/
theorem applyRange_line_eval :
    (applyRange [2020, 2021] [{ label := "A", data := [.num 0, .num 2] }]
      { bar := { labels := [], data := [] }, scatter := { data := [] },
        line := { labels := [], datasets := [] }, updates := 0 } 2020 2021).line.datasets =
      [{ label := "A", data := [.num 0, .num 2] }] := by
  have hs : sliceByYearRange [2020, 2021] 2020 2021 = some (0, 1) := by decide
  unfold applyRange
  rw [hs]
  simp [jsSlice]

/-- Witness for C6: slicing `[2020, 2021]` to the full range leaves the
series of group A with length `1 − 0 + 1 = 2`. -/
theorem applyRange_slice_length_witness :
    ({ label := "A", data := [.num 0, .num 2] } : Dataset).data.length = 1 - 0 + 1 :=
  applyRange_slice_length [2020, 2021] [{ label := "A", data := [.num 0, .num 2] }]
    { bar := { labels := [], data := [] }, scatter := { data := [] },
      line := { labels := [], datasets := [] }, updates := 0 } 2020 2021 0 1
    (by decide)
    (by intro ds hds; rw [List.mem_singleton] at hds; subst hds; rfl)
    { label := "A", data := [.num 0, .num 2] }
    (by rw [applyRange_line_eval]; exact List.mem_singleton.mpr rfl)

/-! ## C7: constant series have std 0 and are excluded from ranked -/

theorem validVals_replicate (n : ℕ) (c : ℝ) :
    validVals (List.replicate n (.num c)) = List.replicate n c := by
  unfold validVals
  induction n with
  | zero => rfl
  | succ k ih =>
      rw [List.replicate_succ, List.filterMap_cons, List.replicate_succ]
      simp [ih]

theorem mean_replicate {n : ℕ} (hn : 1 ≤ n) (c : ℝ) :
    mean (List.replicate n (.num c)) = some c := by
  have hn0 : (n : ℝ) ≠ 0 := Nat.cast_ne_zero.mpr (by omega)
  rw [mean_eq, validVals_replicate]
  rw [if_neg (by simp; omega)]
  simp only [List.sum_replicate, nsmul_eq_mul, List.length_replicate, Option.some.injEq]
  exact mul_div_cancel_left₀ c hn0

theorem stdDev_replicate {n : ℕ} (hn : 2 ≤ n) (c : ℝ) :
    stdDev (List.replicate n (.num c)) = some 0 := by
  have hn0 : (n : ℝ) ≠ 0 := Nat.cast_ne_zero.mpr (by omega)
  rw [stdDev_eq, validVals_replicate]
  rw [if_neg (by simp only [List.length_replicate, Nat.not_lt]; omega)]
  have hμ : (List.replicate n c).sum / ((List.replicate n c).length : ℝ) = c := by
    simp only [List.sum_replicate, nsmul_eq_mul, List.length_replicate]
    exact mul_div_cancel_left₀ c hn0
  rw [List.map_replicate,
    show (c - (List.replicate n c).sum / ((List.replicate n c).length : ℝ)) ^ 2 = 0 by
      rw [hμ]; ring]
  simp [List.sum_replicate]

theorem statOf_replicate (lbl : String) {n : ℕ} (hn : 2 ≤ n) (c : ℝ) :
    statOf { label := lbl, data := List.replicate n (.num c) } =
      { group := lbl, mean := some c, std := some 0, stability := none } := by
  unfold statOf
  rw [mean_replicate (by omega) c, stdDev_replicate hn c]
  simp

/-- C7: For every group whose value series consists of one identical
non-zero numeric value repeated at least 2 times, rankGroups yields
std = 0 and stability = None for that group, and the group is excluded
from the ranked list while still present in stats. -/
theorem replicate_group_spec (years : List ℤ) (datasets : List Dataset)
    (ds : Dataset) (n : ℕ) (c : ℝ)
    (hmem : ds ∈ datasets) (hdata : ds.data = List.replicate n (.num c))
    (hn : 2 ≤ n) (hc : c ≠ 0) :
    (statOf ds).std = some 0 ∧ (statOf ds).stability = none
    ∧ statOf ds ∈ (computeStabilityFromLineDatasets years datasets).stats
    ∧ statOf ds ∉ (computeStabilityFromLineDatasets years datasets).ranked := by
  obtain ⟨lbl, dsdata⟩ := ds
  dsimp only at hdata
  subst hdata
  have hstat := statOf_replicate lbl hn c
  refine ⟨by rw [hstat], by rw [hstat], ?_, ?_⟩
  · exact List.mem_map_of_mem statOf hmem
  · intro hr
    have h1 := List.mem_mergeSort.mp hr
    have h2 := (List.mem_filter.mp h1).2
    rw [hstat] at h2
    simp at h2

/-- Witness for C7: the constant series `[5, 5]` gets std 0. -/
theorem replicate_group_spec_witness :
    (statOf { label := "B", data := List.replicate 2 (.num 5) }).std = some 0 :=
  (replicate_group_spec [] [{ label := "B", data := List.replicate 2 (.num 5) }]
    { label := "B", data := List.replicate 2 (.num 5) } 2 5
    (List.mem_singleton.mpr rfl) rfl (by omega) (by norm_num)).1

/-! ## C8: the years argument is dead -/

/-- C8: The output of computeStabilityFromLineDatasets does not depend on
its years argument: the source never reads the `years` parameter inside
the function body. -/
theorem compute_ignores_years (years1 years2 : List ℤ) (datasets : List Dataset) :
    computeStabilityFromLineDatasets years1 datasets =
      computeStabilityFromLineDatasets years2 datasets := rfl

/-! ## C9: every ranked entry has a defined stability -/

/-- C9: Every element of the ranked list returned by
computeStabilityFromLineDatasets has a non-null (and, over the reals,
automatically finite and non-NaN) stability, so the bar-view update in
applyRange never invokes toFixed on a null stability; the rounding of
`r.stability` is well-defined for every ranked entry. -/
theorem ranked_stability_defined (years : List ℤ) (datasets : List Dataset) :
    ∀ r ∈ (computeStabilityFromLineDatasets years datasets).ranked,
      ∃ x : ℝ, r.stability = some x := by
  intro r hr
  have h1 := List.mem_mergeSort.mp hr
  have h2 := (List.mem_filter.mp h1).2
  exact Option.isSome_iff_exists.mp h2

/-- Witness for C9 on the single group `A = [0, 2]`. -/
theorem ranked_stability_defined_witness :
    ∃ x : ℝ, (statOf { label := "A", data := [.num 0, .num 2] }).stability = some x :=
  ranked_stability_defined [] [{ label := "A", data := [.num 0, .num 2] }]
    (statOf { label := "A", data := [.num 0, .num 2] })
    (by rw [compute_single]; exact List.mem_singleton.mpr rfl)

/-! ## C10: std is non-negative; stability has the sign of the mean -/

theorem stdDev_nonneg {arr : List JSVal} {s : ℝ} (h : stdDev arr = some s) : 0 ≤ s := by
  rw [stdDev_eq] at h
  by_cases hlt : (validVals arr).length < 2
  · rw [if_pos hlt] at h; cases h
  · rw [if_neg hlt] at h
    have h' := Option.some.inj h
    exact h' ▸ Real.sqrt_nonneg _

/-- C10: For every value series on which stdDev returns a non-null
result, that result is non-negative; consequently every non-null, finite
stability value produced by computeStabilityFromLineDatasets has the
same sign as the group's mean. -/
theorem stdDev_nonneg_and_stability_sign :
    (∀ (arr : List JSVal) (s : ℝ), stdDev arr = some s → 0 ≤ s)
    ∧ ∀ (ds : Dataset) (m c : ℝ), (statOf ds).mean = some m →
        (statOf ds).stability = some c →
        ((0 < c ↔ 0 < m) ∧ (c < 0 ↔ m < 0) ∧ (c = 0 ↔ m = 0)) := by
  refine ⟨fun arr s h => stdDev_nonneg h, ?_⟩
  intro ds m c hm hc
  unfold statOf at hm hc
  dsimp only at hm hc
  rcases hs : stdDev ds.data with _ | sv
  · rw [hm, hs] at hc
    exact absurd hc (by simp)
  · rw [hm, hs] at hc
    have hc' : (if sv = 0 then none else some (m / sv)) = some c := hc
    by_cases h0 : sv = 0
    · rw [if_pos h0] at hc'; cases hc'
    · rw [if_neg h0] at hc'
      obtain rfl : m / sv = c := Option.some.inj hc'
      have hsv : 0 < sv := lt_of_le_of_ne (stdDev_nonneg hs) (Ne.symm h0)
      refine ⟨div_pos_iff_of_pos_right hsv, ?_, ?_⟩
      · rw [div_neg_iff]
        constructor
        · rintro (⟨_, h2⟩ | ⟨h1, _⟩)
          · linarith
          · exact h1
        · intro h; exact Or.inr ⟨h, hsv⟩
      · rw [div_eq_zero_iff]
        simp [h0]

/-- Witness for C10: the std of the series `[0, 2]` is `√2 ≥ 0`. -/
theorem stdDev_nonneg_and_stability_sign_witness :
    (0 : ℝ) ≤ Real.sqrt 2 :=
  stdDev_nonneg_and_stability_sign.1 [.num 0, .num 2] (Real.sqrt 2)
    (congrArg Stat.std statOf_zero_two)

